import Mathlib

/- Verification of the Hierarchical Transaction Ledger and Derived-Aggregate
Engine of controlfin-app (src/types.ts, src/App.tsx).  The flat record list,
the mutation handlers, the dashboard aggregations, the month filter and the
tree builder are embedded as executable Lean functions; JS numbers are
modelled by exact integers and stored date strings by Lean strings. -/

/-- Transaction type, from src/types.ts enum TransactionType. -/
inductive TxnType where
  | INCOME
  | EXPENSE
deriving DecidableEq

/-- Flat persisted transaction record, from src/types.ts interface Transaction,
without the derived-only subItems field (populated only by the tree builder)
and without the display-only icon data.  amount is an exact integer standing
for the JS number; date is the stored string. -/
structure Txn where
  id : String
  description : String
  amount : Int
  date : String
  ttype : TxnType
  category : String
  parentId : Option String := none
  notes : Option String := none
deriving DecidableEq

/-- Category record, from src/types.ts interface Category (icon omitted,
display only). -/
structure Category where
  id : String
  name : String
deriving DecidableEq

/-- Records whose parentId equals the given id: the direct children used by
the re-derivation filters `t.parentId === parentIdToUpdate` (App.tsx 1565)
and `sub.parentId === parentId` (App.tsx 1600). -/
def childrenOf (ts : List Txn) (i : String) : List Txn :=
  ts.filter (fun t => t.parentId = some i)

/-- Sum of the direct children's amounts, the value computed by
`.reduce((sum, item) => sum + item.amount, 0)` (App.tsx 1566, 1601). -/
def childSum (ts : List Txn) (i : String) : Int :=
  ((childrenOf ts i).map (fun t => t.amount)).sum

/-- Per-record write-back of a re-derived parent amount
(`t.id === parentIdToUpdate ? { ...t, amount: newParentAmount } : t`,
App.tsx 1568-1570 and 1602-1604). -/
def setAmount (p : String) (s : Int) (t : Txn) : Txn :=
  if t.id = p then { t with amount := s } else t

/-- Parent re-derivation shared by create/update/delete: compute the sum of
the current children of p, then write it onto the record with id p
(App.tsx 1563-1571 and 1597-1605 are both exactly this shape). -/
def rederive (ts : List Txn) (p : String) : List Txn :=
  ts.map (setAmount p (childSum ts p))

/-- The field bundle a save supplies (the transactionData built by
TransactionModal.handleSubmit, App.tsx 322-330, minus id handling). -/
structure TxnFields where
  description : String
  amount : Int
  date : String
  ttype : TxnType
  category : String
  notes : String
deriving DecidableEq

/-- The new record built on the ADD NEW path (App.tsx 1556-1559) from the
modal data: `notes: isSubItem ? notes : undefined` (App.tsx 329) with
isSubItem meaning a parentId is being attached. -/
def mkTxn (newId : String) (f : TxnFields) (pid : Option String) : Txn :=
  { id := newId, description := f.description, amount := f.amount,
    date := f.date, ttype := f.ttype, category := f.category,
    parentId := pid,
    notes := if pid.isSome then some f.notes else none }

/-- Create operation: handleSaveTransaction with no editingTransaction
(App.tsx 1555-1571).  The new record is appended, then, when a parentId was
supplied, that parent's amount is re-derived over the updated list. -/
def createTxn (ts : List Txn) (newId : String) (f : TxnFields)
    (pid : Option String) : List Txn :=
  match pid with
  | some p => rederive (ts ++ [mkTxn newId f (some p)]) p
  | none => ts ++ [mkTxn newId f none]

/-- Replacement of the edited record's fields (`{ ...t, ...transactionData }`,
App.tsx 1553, with transactionData from App.tsx 322-330: the supplied
parentId is the editing record's own parentId, App.tsx 328). -/
def applyFields (f : TxnFields) (pid : Option String) (amt : Int)
    (t : Txn) : Txn :=
  { t with description := f.description, amount := amt, date := f.date,
           ttype := f.ttype, category := f.category, parentId := pid,
           notes := if pid.isSome then some f.notes else none }

/-- Update operation: TransactionModal.handleSubmit composed with the UPDATE
branch of handleSaveTransaction (App.tsx 319-333 and 1551-1571).  The modal
overrides the supplied amount with the editing record's current amount when
that record has sub-items (`hasSubItems ? editingTransaction!.amount :
+amount`, App.tsx 324; hasSubItems is populated by the tree builder and holds
exactly when some record's parentId equals the edited id).  A missing id is a
no-op (in the UI an editingTransaction always exists in the list).  The
field replacement over the list (App.tsx 1552-1554): -/
def updSaved (ts : List Txn) (i : String) (f : TxnFields) (tgt : Txn) : List Txn :=
  ts.map (fun t => if t.id = i then
    applyFields f tgt.parentId
      (if ∃ u ∈ ts, u.parentId = some i then tgt.amount else f.amount) t
  else t)

/-- Update dispatch: after the field replacement, when the edited record has
a parentId, that parent is re-derived (App.tsx 1563-1571). -/
def updateTxn (ts : List Txn) (i : String) (f : TxnFields) : List Txn :=
  match ts.find? (fun t => t.id = i) with
  | none => ts
  | some tgt =>
    match tgt.parentId with
    | some p => rederive (updSaved ts i f tgt) p
    | none => updSaved ts i f tgt

/-- Delete operation: confirmDeleteTransaction (App.tsx 1590-1607).  The
target and every record whose id is among its direct children's ids are
removed in one filter over an id set; if the target was itself a sub-item,
its parent's amount is re-derived over the remaining records. -/
def removeCascade (ts : List Txn) (i : String) : List Txn :=
  ts.filter (fun t => ¬(t.id = i ∨ t.id ∈ (childrenOf ts i).map (fun c => c.id)))

/-- Delete dispatch: when the deleted target was a sub-item, its parent is
re-derived over the remaining records (App.tsx 1597-1605). -/
def deleteTxn (ts : List Txn) (i : String) : List Txn :=
  match ts.find? (fun t => t.id = i) with
  | none => ts
  | some tgt =>
    match tgt.parentId with
    | some p => rederive (removeCascade ts i) p
    | none => removeCascade ts i

/-- Dashboard period total for income: filter on type INCOME and no parentId,
then sum amounts (App.tsx 407). -/
def totalIncome (ts : List Txn) : Int :=
  ((ts.filter (fun t => t.ttype = TxnType.INCOME ∧ t.parentId = none)).map
    (fun t => t.amount)).sum

/-- Dashboard period total for expense (App.tsx 408). -/
def totalExpense (ts : List Txn) : Int :=
  ((ts.filter (fun t => t.ttype = TxnType.EXPENSE ∧ t.parentId = none)).map
    (fun t => t.amount)).sum

/-- Dashboard balance (App.tsx 409). -/
def netBalance (ts : List Txn) : Int := totalIncome ts - totalExpense ts

/-- Character-list test that the second list is an initial segment of the
first, the behaviour of JS `String.prototype.startsWith`. -/
def chStarts : List Char → List Char → Bool
  | _, [] => true
  | [], _ :: _ => false
  | c :: cs, d :: ds => if d = c then chStarts cs ds else false

/-- JS `t.date.startsWith(selectedMonth)` (App.tsx 404). -/
def strStartsWith (s m : String) : Bool := chStarts s.data m.data

/-- JS `t.date.slice(0, 7)` (App.tsx 1701): the first seven characters. -/
def strTake (s : String) (n : Nat) : String := String.mk (s.data.take n)

/-- Month filter of the Dashboard (App.tsx 400-405): the literal value
"all" is a passthrough, anything else is a date-prefix match. -/
def filterByMonth (ts : List Txn) (m : String) : List Txn :=
  if m = "all" then ts else ts.filter (fun t => strStartsWith t.date m)

/-- Lexicographic comparison of character lists, the behaviour of the default
JS string ordering used by `Array.prototype.sort()` on strings. -/
def chLe : List Char → List Char → Bool
  | [], _ => true
  | _ :: _, [] => false
  | c :: cs, d :: ds => if c < d then true else if d < c then false else chLe cs ds

/-- String comparison for the month index sort. -/
def strLe (a b : String) : Bool := chLe a.data b.data

/-- Stable insertion of one element into a sorted list (model of the stable
JS `Array.prototype.sort`; ECMAScript sorts are stable). -/
def insertLe {α : Type} (le : α → α → Bool) (a : α) : List α → List α
  | [] => [a]
  | b :: bs => if le a b then a :: b :: bs else b :: insertLe le a bs

/-- Stable sort used to model `.sort()` calls. -/
def insSort {α : Type} (le : α → α → Bool) : List α → List α
  | [] => []
  | a :: as => insertLe le a (insSort le as)

/-- Distinct YYYY-MM prefixes in first-occurrence order: the JS
`Set<string>` filled by forEach (App.tsx 1699-1702). -/
def monthKeys (ts : List Txn) : List String :=
  ts.foldl (fun acc t =>
    if strTake t.date 7 ∈ acc then acc else acc ++ [strTake t.date 7]) []

/-- Available-month index: distinct prefixes, sorted ascending and reversed
(`Array.from(months).sort().reverse()`, App.tsx 1703). -/
def availableMonths (ts : List Txn) : List String :=
  (insSort strLe (monthKeys ts)).reverse

/-- Display node of the tree builder: a record together with its populated
subItems (the derived-only field of src/types.ts). -/
structure TNode where
  val : Txn
  subs : List TNode

/-- Whether a parentId reference resolves in the current list
(`t.parentId && transactionMap[t.parentId]`, App.tsx 1678). -/
def resolves (ts : List Txn) (pid : Option String) : Bool :=
  match pid with
  | none => false
  | some p => ts.any (fun t => t.id = p)

/-- Fuel-bounded unfolding of the sub-item graph built by the push loop of
App.tsx 1677-1683.  The JS code links aliased objects, so a record's final
subItems hold exactly the records whose parentId is its id, each again
carrying its own children; fuel bounds the unfolding depth and, at fuel
ts.length, reproduces that structure for every acyclic parent chain (chains
of distinct records are no longer than the list). -/
def buildSubs (ts : List Txn) : Nat → String → List TNode
  | 0, _ => []
  | Nat.succ fuel, i =>
    (childrenOf ts i).map (fun c => ⟨c, buildSubs ts fuel c.id⟩)

/-- Date-descending comparator: `(a, b) => new Date(b.date).getTime() -
new Date(a.date).getTime()` (App.tsx 1684); on the stored ISO strings the
timestamp order coincides with the lexicographic string order. -/
def dateDesc (a b : Txn) : Bool := strLe b.date a.date

/-- The same comparator read off the node's record. -/
def nodeDateDesc (a b : TNode) : Bool := strLe b.val.date a.val.date

/-- Tree builder transactionsWithSubItems (App.tsx 1672-1688): a record is a
root when its parentId is absent or does not resolve; roots are sorted by
date descending and each root's subItems list is sorted the same way
(deeper levels are left in insertion order, as in the source which only
sorts rootTransactions and their direct subItems).  The JS code works
through an id-keyed transactionMap (App.tsx 1676) whose insertion is
last-write-wins, so on duplicate-id input it pushes the last copy for every
record with that id; this model keeps each record itself and therefore
coincides with the code exactly on unique-id inputs, which every theorem
below assumes. -/
def buildTree (ts : List Txn) : List TNode :=
  (insSort dateDesc (ts.filter (fun t => ¬ resolves ts t.parentId = true))).map
    (fun t => ⟨t, insSort nodeDateDesc
      ((childrenOf ts t.id).map (fun c => ⟨c, buildSubs ts ts.length c.id⟩))⟩)

mutual
/-- All records of one display node: the node's record followed by the
records of its sub-items (the flat traversal of the displayed tree). -/
def flattenOne : TNode → List Txn
  | ⟨t, subs⟩ => t :: flattenList subs
/-- All records of a display forest. -/
def flattenList : List TNode → List Txn
  | [] => []
  | n :: ns => flattenOne n ++ flattenList ns
end

/-- Outcome of a category deletion attempt. -/
inductive DeleteCategoryOutcome where
  | notFound
  | inUse
  | deleted (cats : List Category)
deriving DecidableEq

/-- Category deletion: handleDeleteCategoryRequest guard plus
confirmDeleteCategory (App.tsx 1614-1629).  The in-use scan
`t.category === categoryToDelete.name || t.subItems?.some(...)` runs over the
flat stored list, whose records never carry subItems, so it is exactly a scan
of every stored record's category. -/
def deleteCategory (ts : List Txn) (cats : List Category) (cid : String) :
    DeleteCategoryOutcome :=
  match cats.find? (fun c => c.id = cid) with
  | none => .notFound
  | some c =>
    if ∃ t ∈ ts, t.category = c.name then .inUse
    else .deleted (cats.filter (fun d => ¬ d.id = cid))

/-- State transition of a category deletion attempt: on a refused deletion
the handlers leave both the transactions and the categories untouched; a
confirmed deletion replaces only the category list (App.tsx 1610-1629). -/
def applyDeleteCategory (ts : List Txn) (cats : List Category)
    (cid : String) : List Txn × List Category :=
  match deleteCategory ts cats cid with
  | .deleted cats2 => (ts, cats2)
  | _ => (ts, cats)

/-- Modal form state relevant to the submit guard: amount is none while the
field still holds the initial empty-string state (App.tsx 291). -/
structure ModalState where
  description : String
  amount : Option Int
  date : String
  ttype : TxnType
  category : String
  notes : String
deriving DecidableEq

/-- The submit guard `if (description && amount !== '' && date && category)`
(App.tsx 321): JS truthiness of the three strings and the amount state. -/
def submitAllowed (m : ModalState) : Bool :=
  ¬ m.description = "" ∧ m.amount.isSome ∧ ¬ m.date = "" ∧ ¬ m.category = ""

/-- Result of a modal submit: rejected means the guard failed and onSave was
never invoked, so the record set is untouched. -/
inductive SaveOutcome where
  | rejected
  | saved (ts : List Txn)
deriving DecidableEq

/-- TransactionModal.handleSubmit (App.tsx 319-333) dispatching into
handleSaveTransaction (App.tsx 1546-1577).  editing carries the id of the
record being edited (none on the create path); the modal's
`new Date(date).toISOString()` conversion is treated as the identity on the
already-ISO date strings the picker produces. -/
def modalSubmit (ts : List Txn) (editing : Option String)
    (pid : Option String) (newId : String) (m : ModalState) : SaveOutcome :=
  if submitAllowed m then
    let f : TxnFields :=
      { description := m.description, amount := m.amount.getD 0,
        date := m.date, ttype := m.ttype, category := m.category,
        notes := m.notes }
    match editing with
    | some i => .saved (updateTxn ts i f)
    | none => .saved (createTxn ts newId f pid)
  else .rejected

/-- Uniqueness of record ids, as stipulated by the data model (spec section 3:
id is an opaque unique identifier). -/
def uniqueIds (ts : List Txn) : Prop := (ts.map (fun t => t.id)).Nodup

/-- Invariant I2 (no nested sub-items): a record with a parentId is never
itself referenced as a parent. -/
def noNesting (ts : List Txn) : Prop :=
  ∀ t ∈ ts, t.parentId ≠ none → ∀ u ∈ ts, u.parentId ≠ some t.id

/-- Invariant I1 (parent-sum): every record with at least one child carries
the sum of its children's amounts. -/
def parentSumOk (ts : List Txn) : Prop :=
  ∀ t ∈ ts, childrenOf ts t.id ≠ [] → t.amount = childSum ts t.id

/-- A record set conforming to the data model: unique ids, no nesting, and
the parent-sum invariant. -/
def validSet (ts : List Txn) : Prop :=
  uniqueIds ts ∧ noNesting ts ∧ parentSumOk ts

instance uniqueIdsDec (ts : List Txn) : Decidable (uniqueIds ts) := by
  unfold uniqueIds; infer_instance

instance noNestingDec (ts : List Txn) : Decidable (noNesting ts) := by
  unfold noNesting; infer_instance

instance parentSumOkDec (ts : List Txn) : Decidable (parentSumOk ts) := by
  unfold parentSumOk; infer_instance

instance validSetDec (ts : List Txn) : Decidable (validSet ts) := by
  unfold validSet; infer_instance

/-- One Mutation Engine operation. -/
inductive Op where
  | createOp (newId : String) (f : TxnFields) (pid : Option String)
  | updateOp (i : String) (f : TxnFields)
  | deleteOp (i : String)

/-- Application of one operation to the flat record set. -/
def applyOp (ts : List Txn) : Op → List Txn
  | .createOp newId f pid => createTxn ts newId f pid
  | .updateOp i f => updateTxn ts i f
  | .deleteOp i => deleteTxn ts i

/-- Application of a sequence of operations. -/
def applyOps (ts : List Txn) : List Op → List Txn
  | [] => ts
  | op :: ops => applyOps (applyOp ts op) ops

/-- The engine's contract for a create: the assigned id is fresh (it is no
existing id, is referenced by no stored parentId, and differs from the
supplied parentId), and sub-items are only ever attached to top-level
records (spec sections 4.4 and I2 enforcement note). -/
def okOp (ts : List Txn) : Op → Prop
  | .createOp newId _ pid =>
      (∀ t ∈ ts, t.id ≠ newId ∧ t.parentId ≠ some newId) ∧ pid ≠ some newId ∧
      (∀ p, pid = some p → ∀ t ∈ ts, t.id = p → t.parentId = none)
  | .updateOp _ _ => True
  | .deleteOp _ => True

/-- A sequence of operations each issued under the engine's contract for the
record set current at its point of application. -/
def seqOk : List Txn → List Op → Prop
  | _, [] => True
  | ts, op :: ops => okOp ts op ∧ seqOk (applyOp ts op) ops

instance okOpDec (ts : List Txn) (op : Op) : Decidable (okOp ts op) := by
  cases op <;> (unfold okOp; infer_instance)

instance seqOkDec : (ts : List Txn) → (ops : List Op) → Decidable (seqOk ts ops)
  | _, [] => .isTrue trivial
  | ts, op :: ops =>
    @instDecidableAnd _ _ (okOpDec ts op) (seqOkDec (applyOp ts op) ops)

/-- Mapping a function that fixes every member is the identity. -/
theorem map_id_on {α : Type} {f : α → α} :
    ∀ {l : List α}, (∀ a ∈ l, f a = a) → l.map f = l := by
  intro l
  induction l with
  | nil => intro _; rfl
  | cons a l ih =>
    intro h
    rw [List.map_cons, h a (List.mem_cons_self a l),
      ih (fun b hb => h b (List.mem_cons_of_mem a hb))]

/-- Filtering a mapped list when the predicate factors through the map. -/
theorem filter_map_on {α : Type} {f : α → α} {p q : α → Bool} :
    ∀ {l : List α}, (∀ a ∈ l, p (f a) = q a) →
      (l.map f).filter p = (l.filter q).map f := by
  intro l
  induction l with
  | nil => intro _; rfl
  | cons a l ih =>
    intro h
    rw [List.map_cons, List.filter_cons, List.filter_cons,
      h a (List.mem_cons_self a l),
      ih (fun b hb => h b (List.mem_cons_of_mem a hb))]
    by_cases hq : q a = true
    · rw [if_pos hq, if_pos hq, List.map_cons]
    · rw [if_neg hq, if_neg hq]

/-- Members of a list with duplicate-free keys are determined by their key. -/
theorem inj_on_key {α κ : Type} {f : α → κ} :
    ∀ {l : List α}, (l.map f).Nodup → ∀ {a b : α}, a ∈ l → b ∈ l →
      f a = f b → a = b := by
  intro l
  induction l with
  | nil => intro _ a b ha; exact absurd ha (List.not_mem_nil a)
  | cons c l ih =>
    intro hnd a b ha hb hab
    rw [List.map_cons, List.nodup_cons] at hnd
    rcases List.mem_cons.1 ha with rfl | ha2
    · rcases List.mem_cons.1 hb with rfl | hb2
      · rfl
      · exact absurd (hab ▸ List.mem_map_of_mem f hb2) hnd.1
    · rcases List.mem_cons.1 hb with rfl | hb2
      · exact absurd (hab ▸ List.mem_map_of_mem f ha2) hnd.1
      · exact ih hnd.2 ha2 hb2 hab

/-- With duplicate-free keys, the key lookup finds exactly the member. -/
theorem find_key {α κ : Type} [DecidableEq κ] {f : α → κ} :
    ∀ {l : List α}, (l.map f).Nodup → ∀ {w : α}, w ∈ l → ∀ {k : κ}, f w = k →
      l.find? (fun x => f x = k) = some w := by
  intro l
  induction l with
  | nil => intro _ w hw; exact absurd hw (List.not_mem_nil w)
  | cons c l ih =>
    intro hnd w hw k hk
    rw [List.map_cons, List.nodup_cons] at hnd
    rcases List.mem_cons.1 hw with rfl | hw2
    · rw [List.find?_cons_of_pos _ (by simp [hk])]
    · have hck : ¬ f c = k := by
        intro hek
        exact hnd.1 (by rw [hek, ← hk]; exact List.mem_map_of_mem f hw2)
      rw [List.find?_cons_of_neg _ (by simp [hck]), ih hnd.2 hw2 hk]

/-- With duplicate-free keys, filtering on a member's key keeps exactly it. -/
theorem filter_key {α κ : Type} [DecidableEq κ] {f : α → κ} :
    ∀ {l : List α}, (l.map f).Nodup → ∀ {w : α}, w ∈ l → ∀ {k : κ}, f w = k →
      l.filter (fun x => f x = k) = [w] := by
  intro l
  induction l with
  | nil => intro _ w hw; exact absurd hw (List.not_mem_nil w)
  | cons c l ih =>
    intro hnd w hw k hk
    rw [List.map_cons, List.nodup_cons] at hnd
    rcases List.mem_cons.1 hw with rfl | hw2
    · rw [List.filter_cons_of_pos (by simp [hk]), List.filter_eq_nil_iff.2]
      intro b hb
      simp only [decide_eq_true_eq]
      intro hbk
      exact hnd.1 (by rw [hk, ← hbk]; exact List.mem_map_of_mem f hb)
    · have hck : ¬ f c = k := by
        intro hek
        exact hnd.1 (by rw [hek, ← hk]; exact List.mem_map_of_mem f hw2)
      rw [List.filter_cons_of_neg (by simp [hck]), ih hnd.2 hw2 hk]

/-- Length accounting for a filter and its complement. -/
theorem length_filter_split {α : Type} (p : α → Bool) (l : List α) :
    (l.filter p).length + (l.filter (fun a => !p a)).length = l.length := by
  have h := (List.filter_append_perm p l).length_eq
  rw [List.length_append] at h
  exact h

/-- Stable insertion produces a permutation of the cons. -/
theorem insertLe_perm {α : Type} (le : α → α → Bool) (a : α) :
    ∀ l : List α, (insertLe le a l).Perm (a :: l) := by
  intro l
  induction l with
  | nil => exact List.Perm.refl _
  | cons b bs ih =>
    unfold insertLe
    by_cases h : le a b = true
    · rw [if_pos h]
    · rw [if_neg h]
      exact (ih.cons b).trans (List.Perm.swap a b bs)

/-- The modelled stable sort permutes its input. -/
theorem insSort_perm {α : Type} (le : α → α → Bool) :
    ∀ l : List α, (insSort le l).Perm l := by
  intro l
  induction l with
  | nil => exact List.Perm.refl _
  | cons a as ih =>
    exact (insertLe_perm le a (insSort le as)).trans (ih.cons a)

/-- A string always starts with its own initial segment. -/
theorem chStarts_take : ∀ (s : List Char) (n : Nat), chStarts s (s.take n) = true := by
  intro s
  induction s with
  | nil => intro n; cases n <;> rfl
  | cons c cs ih =>
    intro n
    cases n with
    | zero => rfl
    | succ n => simpa [chStarts, List.take] using ih n

/-- Membership in the first-occurrence month accumulator. -/
theorem mem_monthKeys_aux :
    ∀ (ts : List Txn) (acc : List String) (x : String),
      (x ∈ ts.foldl (fun acc t =>
          if strTake t.date 7 ∈ acc then acc else acc ++ [strTake t.date 7]) acc) ↔
      x ∈ acc ∨ ∃ t ∈ ts, strTake t.date 7 = x := by
  intro ts
  induction ts with
  | nil => intro acc x; simp [List.foldl]
  | cons t ts ih =>
    intro acc x
    rw [List.foldl_cons, ih]
    by_cases hmem : strTake t.date 7 ∈ acc
    · rw [if_pos hmem]
      simp only [List.exists_mem_cons_iff]
      constructor
      · rintro (h | h)
        · exact Or.inl h
        · exact Or.inr (Or.inr h)
      · rintro (h | h | h)
        · exact Or.inl h
        · exact Or.inl (h ▸ hmem)
        · exact Or.inr h
    · rw [if_neg hmem]
      simp only [List.exists_mem_cons_iff, List.mem_append, List.mem_singleton]
      constructor
      · rintro ((h | h) | h)
        · exact Or.inl h
        · exact Or.inr (Or.inl h.symm)
        · exact Or.inr (Or.inr h)
      · rintro (h | h | h)
        · exact Or.inl (Or.inl h)
        · exact Or.inl (Or.inr h.symm)
        · exact Or.inr h

/-- Membership in the available-month index is existence of a record whose
date carries that YYYY-MM prefix. -/
theorem mem_availableMonths {ts : List Txn} {m : String} :
    m ∈ availableMonths ts ↔ ∃ t ∈ ts, strTake t.date 7 = m := by
  unfold availableMonths monthKeys
  rw [List.mem_reverse, (insSort_perm strLe _).mem_iff, mem_monthKeys_aux]
  simp

/-- Sums of a filter and of its complement add up to the full sum. -/
theorem sum_filter_split {α : Type} (p : α → Bool) (g : α → Int) (l : List α) :
    ((l.filter p).map g).sum + ((l.filter (fun a => !p a)).map g).sum =
      (l.map g).sum := by
  have h := ((List.filter_append_perm p l).map g).sum_eq
  rw [List.map_append, List.sum_append] at h
  exact h

/-- Income and expense totals together cover exactly the top-level records. -/
theorem totals_split (ts : List Txn) :
    totalIncome ts + totalExpense ts =
      ((ts.filter (fun t => t.parentId = none)).map (fun t => t.amount)).sum := by
  have e1 : ts.filter (fun t => t.ttype = TxnType.INCOME ∧ t.parentId = none)
      = (ts.filter (fun t => t.parentId = none)).filter
          (fun t => t.ttype = TxnType.INCOME) := by
    rw [List.filter_filter]
    apply List.filter_congr
    intro a _
    by_cases h1 : a.ttype = TxnType.INCOME <;> by_cases h2 : a.parentId = none <;>
      simp [h1, h2]
  have e2 : ts.filter (fun t => t.ttype = TxnType.EXPENSE ∧ t.parentId = none)
      = (ts.filter (fun t => t.parentId = none)).filter
          (fun t => !(decide (t.ttype = TxnType.INCOME))) := by
    rw [List.filter_filter]
    apply List.filter_congr
    intro a _
    cases h : a.ttype <;> by_cases h2 : a.parentId = none <;> simp [h, h2]
  unfold totalIncome totalExpense
  rw [e1, e2]
  exact sum_filter_split _ _ _

/-- C4: the dashboard's totalIncome is the sum of amounts over records with
no parentId and type INCOME, totalExpense the analogous EXPENSE sum, the
balance is their difference, and together the two totals are exactly the sum
over top-level records, so sub-items never contribute directly no matter how
many the set contains. -/
theorem period_totals_top_level (ts : List Txn) :
    totalIncome ts =
      ((ts.filter (fun t => t.parentId = none ∧ t.ttype = TxnType.INCOME)).map
        (fun t => t.amount)).sum ∧
    totalExpense ts =
      ((ts.filter (fun t => t.parentId = none ∧ t.ttype = TxnType.EXPENSE)).map
        (fun t => t.amount)).sum ∧
    netBalance ts = totalIncome ts - totalExpense ts ∧
    totalIncome ts + totalExpense ts =
      ((ts.filter (fun t => t.parentId = none)).map (fun t => t.amount)).sum := by
  refine ⟨?_, ?_, rfl, totals_split ts⟩
  · have h : ∀ t ∈ ts,
        (decide (t.ttype = TxnType.INCOME ∧ t.parentId = none)) =
        (decide (t.parentId = none ∧ t.ttype = TxnType.INCOME)) := by
      intro t _
      simp only [decide_eq_decide]
      exact and_comm
    unfold totalIncome
    rw [List.filter_congr h]
  · have h : ∀ t ∈ ts,
        (decide (t.ttype = TxnType.EXPENSE ∧ t.parentId = none)) =
        (decide (t.parentId = none ∧ t.ttype = TxnType.EXPENSE)) := by
      intro t _
      simp only [decide_eq_decide]
      exact and_comm
    unfold totalExpense
    rw [List.filter_congr h]

/-- Sample record builder used by concrete inputs below. -/
def sTxn (i : String) (a : Int) (d : String) (pid : Option String) : Txn :=
  { id := i, description := "x", amount := a, date := d,
    ttype := TxnType.EXPENSE, category := "g", parentId := pid }

/-- C10: creating a record whose parentId resolves to no existing id appends
exactly the one new record; every record already present is untouched, the
re-derivation writing to no record. -/
theorem create_dangling_parent_appends (ts : List Txn) (newId : String)
    (f : TxnFields) (p : String) (hd : ∀ t ∈ ts, t.id ≠ p)
    (hn : newId ≠ p) :
    createTxn ts newId f (some p) = ts ++ [mkTxn newId f (some p)] := by
  unfold createTxn rederive
  apply map_id_on
  intro t ht
  rcases List.mem_append.1 ht with h | h
  · simp [setAmount, hd t h]
  · rw [List.mem_singleton] at h
    subst h
    simp [setAmount, mkTxn, hn]

def w10ts : List Txn := [sTxn "a" 3 "2024-01-01" none]

def w10f : TxnFields :=
  { description := "n", amount := 2, date := "2024-02-01",
    ttype := TxnType.EXPENSE, category := "c", notes := "" }

/-- Witness for create_dangling_parent_appends at a concrete input. -/
theorem create_dangling_parent_appends_w :
    createTxn w10ts "b" w10f (some "zz") = w10ts ++ [mkTxn "b" w10f (some "zz")] :=
  create_dangling_parent_appends w10ts "b" w10f "zz" (by decide) (by decide)

def c6ts : List Txn := [sTxn "t1" 1 "all" none, sTxn "t2" 2 "2024-01-05" none]

/-- C6 counterexample: on a record set containing the date string "all", the
month value "all" is a member of availableMonths, yet filtering by it is the
passthrough and returns records whose dates do not start with "all" — so the
claim, which quantifies over every member of availableMonths, fails. -/
theorem month_filter_cx :
    ¬ ((filterByMonth c6ts "all" = c6ts) ∧
       ∀ m ∈ availableMonths c6ts, filterByMonth c6ts m ≠ [] ∧
         ∀ t ∈ filterByMonth c6ts m, strStartsWith t.date m = true) := by
  decide

/-- C6 amended: filtering by the literal "all" returns the input unchanged,
and filtering by any member of availableMonths other than the literal "all"
returns a non-empty sublist in which every record's date starts with that
month string. -/
theorem month_filter_all_and_members (ts : List Txn) :
    filterByMonth ts "all" = ts ∧
    ∀ m ∈ availableMonths ts, m ≠ "all" →
      filterByMonth ts m ≠ [] ∧
      ∀ t ∈ filterByMonth ts m, strStartsWith t.date m = true := by
  constructor
  · simp [filterByMonth]
  · intro m hm hne
    obtain ⟨t, ht, hkey⟩ := mem_availableMonths.1 hm
    have hstart : strStartsWith t.date m = true := by
      rw [← hkey]
      exact chStarts_take t.date.data 7
    constructor
    · refine List.ne_nil_of_mem (a := t) ?_
      unfold filterByMonth
      rw [if_neg hne]
      exact List.mem_filter.2 ⟨ht, hstart⟩
    · intro u hu
      unfold filterByMonth at hu
      rw [if_neg hne] at hu
      exact (List.mem_filter.1 hu).2

def w6ts : List Txn := [sTxn "t1" 5 "2024-01-05" none]

/-- Witness for month_filter_all_and_members at a concrete input. -/
theorem month_filter_all_and_members_w :
    filterByMonth w6ts "2024-01" ≠ [] ∧
    ∀ t ∈ filterByMonth w6ts "2024-01", strStartsWith t.date "2024-01" = true :=
  (month_filter_all_and_members w6ts).2 "2024-01" (by decide) (by decide)

/-- C5: for a category of the active set, deletion fails with the in-use
outcome and changes nothing when some transaction carries its name; when no
transaction does, deletion succeeds, leaves the record set untouched, and
removes exactly that category from the category set. -/
theorem category_delete_guard (ts : List Txn) (cats : List Category)
    (c : Category) (hc : c ∈ cats)
    (hids : (cats.map (fun d => d.id)).Nodup) :
    ((∃ t ∈ ts, t.category = c.name) →
        deleteCategory ts cats c.id = .inUse ∧
        applyDeleteCategory ts cats c.id = (ts, cats)) ∧
    ((¬ ∃ t ∈ ts, t.category = c.name) →
        deleteCategory ts cats c.id =
          .deleted (cats.filter (fun d => ¬ d.id = c.id)) ∧
        applyDeleteCategory ts cats c.id =
          (ts, cats.filter (fun d => ¬ d.id = c.id)) ∧
        c ∉ cats.filter (fun d => ¬ d.id = c.id) ∧
        (∀ d ∈ cats, d ≠ c → d ∈ cats.filter (fun d => ¬ d.id = c.id)) ∧
        (cats.filter (fun d => ¬ d.id = c.id)).length + 1 = cats.length) := by
  have hfind : cats.find? (fun d => d.id = c.id) = some c :=
    find_key hids hc rfl
  have hdel : deleteCategory ts cats c.id =
      (if ∃ t ∈ ts, t.category = c.name then DeleteCategoryOutcome.inUse
       else .deleted (cats.filter (fun d => ¬ d.id = c.id))) := by
    unfold deleteCategory
    rw [hfind]
  constructor
  · intro huse
    have h1 : deleteCategory ts cats c.id = .inUse := by
      rw [hdel, if_pos huse]
    refine ⟨h1, ?_⟩
    unfold applyDeleteCategory
    rw [h1]
  · intro hnouse
    have h1 : deleteCategory ts cats c.id =
        .deleted (cats.filter (fun d => ¬ d.id = c.id)) := by
      rw [hdel, if_neg hnouse]
    refine ⟨h1, by unfold applyDeleteCategory; rw [h1], ?_, ?_, ?_⟩
    · intro hmem
      have h2 := (List.mem_filter.1 hmem).2
      simp at h2
    · intro d hd hne
      refine List.mem_filter.2 ⟨hd, ?_⟩
      simp only [decide_eq_true_eq]
      intro heq
      exact hne (inj_on_key hids hd hc heq)
    · have hk := filter_key hids hc rfl
      have hsplit := length_filter_split (fun d => decide (d.id = c.id)) cats
      rw [hk] at hsplit
      have he : cats.filter (fun d => ¬ d.id = c.id) =
          cats.filter (fun d => !(decide (d.id = c.id))) := by
        apply List.filter_congr
        intro a _
        by_cases h : a.id = c.id <;> simp [h]
      rw [he]
      simp only [List.length_cons, List.length_nil] at hsplit
      omega

def w5ts : List Txn := [sTxn "t1" 5 "2024-01-05" none]

def w5cats : List Category := [⟨"c1", "g"⟩, ⟨"c2", "unused"⟩]

/-- Witness for category_delete_guard: the category named g is referenced by
the sample record, so deleting it is refused and changes nothing. -/
theorem category_delete_guard_w :
    deleteCategory w5ts w5cats "c1" = .inUse ∧
    applyDeleteCategory w5ts w5cats "c1" = (w5ts, w5cats) :=
  (category_delete_guard w5ts w5cats ⟨"c1", "g"⟩ (by decide) (by decide)).1
    (by decide)

/-- C7 amended: a submit whose description, amount, date or category field is
still empty is rejected and the record set is untouched. -/
theorem save_validation_guard (ts : List Txn) (editing : Option String)
    (pid : Option String) (newId : String) (m : ModalState)
    (h : m.description = "" ∨ m.amount = none ∨ m.date = "" ∨
      m.category = "") :
    modalSubmit ts editing pid newId m = .rejected := by
  have hguard : submitAllowed m = false := by
    unfold submitAllowed
    rcases h with h | h | h | h <;> simp [h]
  unfold modalSubmit
  rw [hguard]
  simp

def c7m : ModalState :=
  { description := "a", amount := some (-5), date := "2024-01-01",
    ttype := TxnType.EXPENSE, category := "c", notes := "" }

/-- C7 counterexample: a create supplying a negative amount is not rejected;
the save goes through and appends the record with the negative amount, so
the record set is mutated. -/
theorem save_negative_amount_cx :
    modalSubmit [] none none "t1" c7m ≠ .rejected ∧
    modalSubmit [] none none "t1" c7m =
      .saved [{ id := "t1", description := "a", amount := -5,
                date := "2024-01-01", ttype := TxnType.EXPENSE,
                category := "c", parentId := none, notes := none }] := by
  decide

def w7m : ModalState :=
  { description := "", amount := some 3, date := "2024-01-01",
    ttype := TxnType.EXPENSE, category := "c", notes := "" }

/-- Witness for save_validation_guard: an empty description is rejected. -/
theorem save_validation_guard_w :
    modalSubmit [] none none "n1" w7m = .rejected :=
  save_validation_guard [] none none "n1" w7m (Or.inl rfl)

def c8orphan : Txn := sTxn "a" 1 "2024-01-02" (some "zz")

def c8ts : List Txn := [c8orphan, sTxn "b" 2 "2024-01-01" (some "a")]

/-- C8 counterexample: the record a has a dangling parentId zz and is indeed
returned as a root, but its subItems list is not empty — it holds the record
b whose parentId is a — so the claim that an orphan always appears with an
empty subItems list fails. -/
theorem orphan_subitems_cx :
    (∀ u ∈ c8ts, u.id ≠ "zz") ∧
    (∃ n ∈ buildTree c8ts, n.val = c8orphan ∧ n.subs.length = 1) ∧
    ¬ (∃ n ∈ buildTree c8ts, n.val = c8orphan ∧ n.subs.length = 0) := by
  decide

/-- C8 amended: on an input list with unique ids, a record whose parentId
does not resolve to any id of the list is treated as a root — it appears in
the returned root sequence, with no error, its subItems holding exactly the
records whose parentId is its own id (so an empty list whenever nothing
references it). -/
theorem orphan_treated_as_root (ts : List Txn) (_hU : uniqueIds ts)
    (t : Txn) (ht : t ∈ ts)
    (p : String) (hp : t.parentId = some p) (hdang : ∀ u ∈ ts, u.id ≠ p) :
    ∃ n ∈ buildTree ts, n.val = t ∧
      ((n.subs.map (fun s => s.val)).Perm (childrenOf ts t.id)) := by
  have hroot : t ∈ ts.filter (fun u => ¬ resolves ts u.parentId = true) := by
    refine List.mem_filter.2 ⟨ht, ?_⟩
    simp only [decide_eq_true_eq]
    rw [hp]
    unfold resolves
    simp only [List.any_eq_true, decide_eq_true_eq]
    rintro ⟨u, hu, he⟩
    exact hdang u hu he
  have hmem2 : t ∈ insSort dateDesc
      (ts.filter (fun u => ¬ resolves ts u.parentId = true)) :=
    (insSort_perm dateDesc _).mem_iff.2 hroot
  unfold buildTree
  refine ⟨_, List.mem_map_of_mem _ hmem2, rfl, ?_⟩
  have h1 : ((insSort nodeDateDesc
        ((childrenOf ts t.id).map
          (fun c => ⟨c, buildSubs ts ts.length c.id⟩))).map
      (fun s => s.val)).Perm
      (((childrenOf ts t.id).map
          (fun c => (⟨c, buildSubs ts ts.length c.id⟩ : TNode))).map
        (fun s => s.val)) :=
    (insSort_perm nodeDateDesc _).map _
  have h2 : ((childrenOf ts t.id).map
        (fun c => (⟨c, buildSubs ts ts.length c.id⟩ : TNode))).map
      (fun s => s.val) = childrenOf ts t.id := by
    rw [List.map_map]
    exact map_id_on (fun a _ => rfl)
  rw [h2] at h1
  exact h1

def w8ts : List Txn := [sTxn "a" 1 "2024-01-02" (some "zz")]

/-- Witness for orphan_treated_as_root at a concrete one-orphan list. -/
theorem orphan_treated_as_root_w :
    ∃ n ∈ buildTree w8ts, n.val = sTxn "a" 1 "2024-01-02" (some "zz") ∧
      ((n.subs.map (fun s => s.val)).Perm
        (childrenOf w8ts (sTxn "a" 1 "2024-01-02" (some "zz")).id)) :=
  orphan_treated_as_root w8ts (by decide) (sTxn "a" 1 "2024-01-02" (some "zz"))
    (by decide) "zz" (by decide) (by decide)

theorem flattenList_eq : ∀ l : List TNode, flattenList l = (l.map flattenOne).flatten := by
  intro l
  induction l with
  | nil => rfl
  | cons n ns ih =>
    simp only [flattenList, List.map_cons, List.flatten_cons, ih]

theorem count_flattenList (a : Txn) (l : List TNode) :
    (flattenList l).count a = (l.map (fun n => (flattenOne n).count a)).sum := by
  rw [flattenList_eq, List.count_flatten, List.map_map]
  rfl

theorem sum_map_add_nat {α : Type} (f g : α → Nat) (l : List α) :
    (l.map (fun x => f x + g x)).sum = (l.map f).sum + (l.map g).sum := by
  induction l with
  | nil => rfl
  | cons x l ih =>
    simp only [List.map_cons, List.sum_cons, ih]
    omega

theorem sum_map_delta {α : Type} [DecidableEq α] (a : α) (l : List α) :
    (l.map (fun b => if b = a then 1 else 0)).sum = l.count a := by
  induction l with
  | nil => rfl
  | cons b l ih =>
    simp only [List.map_cons, List.sum_cons, ih, List.count_cons]
    by_cases h : b = a <;> simp [h] <;> omega

theorem sum_map_ite_key_nat {α κ : Type} [DecidableEq κ] (f : α → κ) (k : κ)
    (c : Nat) (l : List α) :
    (l.map (fun x => if f x = k then c else 0)).sum =
      c * (l.filter (fun x => f x = k)).length := by
  induction l with
  | nil => simp
  | cons x l ih =>
    by_cases h : f x = k <;>
      simp [List.filter_cons, h, ih, Nat.mul_succ] <;> omega

theorem count_zero_of_not_pred {α : Type} [DecidableEq α] {p : α → Bool}
    {a : α} (h : ¬ p a = true) (l : List α) : (l.filter p).count a = 0 :=
  List.count_eq_zero_of_not_mem (fun hm => h (List.mem_filter.1 hm).2)

theorem childrenOf_nil_of_sub (ts : List Txn) (hN : noNesting ts) (c : Txn)
    (hc : c ∈ ts) (q : String) (hq : c.parentId = some q) :
    childrenOf ts c.id = [] := by
  unfold childrenOf
  rw [List.filter_eq_nil_iff]
  intro u hu
  simp only [decide_eq_true_eq]
  exact hN c hc (by rw [hq]; simp) u hu

theorem buildSubs_nil (ts : List Txn) (i : String)
    (h : childrenOf ts i = []) : ∀ fuel, buildSubs ts fuel i = [] := by
  intro fuel
  cases fuel with
  | zero => rfl
  | succ n => simp [buildSubs, h]

/-- C9 amended: on a record set with unique ids and no nested sub-items, the
tree builder's output contains every input transaction exactly once — as a
root or inside exactly one subItems list — with the record's own fields
unchanged: the flat traversal of the output is a permutation of the input. -/
theorem tree_output_perm (ts : List Txn) (hU : uniqueIds ts)
    (hN : noNesting ts) : (flattenList (buildTree ts)).Perm ts := by
  rw [List.perm_iff_count]
  intro a
  have hroots_eq : ts.filter (fun t => ¬ resolves ts t.parentId = true)
      = ts.filter (fun t => !(resolves ts t.parentId)) := by
    apply List.filter_congr
    intro t _
    cases resolves ts t.parentId <;> simp
  have hL1 : (flattenList (buildTree ts)).count a
      = ((insSort dateDesc (ts.filter (fun t => !(resolves ts t.parentId)))).map
          (fun t => (flattenOne ⟨t, insSort nodeDateDesc
            ((childrenOf ts t.id).map
              (fun c => ⟨c, buildSubs ts ts.length c.id⟩))⟩).count a)).sum := by
    unfold buildTree
    rw [hroots_eq, count_flattenList, List.map_map]
    rfl
  have hL2 : ((insSort dateDesc (ts.filter (fun t => !(resolves ts t.parentId)))).map
          (fun t => (flattenOne ⟨t, insSort nodeDateDesc
            ((childrenOf ts t.id).map
              (fun c => ⟨c, buildSubs ts ts.length c.id⟩))⟩).count a)).sum
      = ((ts.filter (fun t => !(resolves ts t.parentId))).map
          (fun t => (flattenOne ⟨t, insSort nodeDateDesc
            ((childrenOf ts t.id).map
              (fun c => ⟨c, buildSubs ts ts.length c.id⟩))⟩).count a)).sum :=
    ((insSort_perm dateDesc _).map _).sum_eq
  have hpoint : ∀ t ∈ ts.filter (fun t => !(resolves ts t.parentId)),
      (flattenOne ⟨t, insSort nodeDateDesc
        ((childrenOf ts t.id).map
          (fun c => ⟨c, buildSubs ts ts.length c.id⟩))⟩).count a
      = (if t = a then 1 else 0) + (childrenOf ts t.id).count a := by
    intro t htR
    have hsubs : (flattenList (insSort nodeDateDesc
        ((childrenOf ts t.id).map
          (fun c => ⟨c, buildSubs ts ts.length c.id⟩)))).count a
        = (childrenOf ts t.id).count a := by
      rw [count_flattenList]
      rw [((insSort_perm nodeDateDesc _).map _).sum_eq, List.map_map]
      have hleaf : ∀ c ∈ childrenOf ts t.id,
          ((fun n => (flattenOne n).count a) ∘
            (fun c => (⟨c, buildSubs ts ts.length c.id⟩ : TNode))) c
          = (if c = a then 1 else 0) := by
        intro c hcch
        have hcts : c ∈ ts := (List.mem_filter.1 hcch).1
        have hcpar : c.parentId = some t.id := by
          have h2 := (List.mem_filter.1 hcch).2
          simpa using h2
        have hcnil : childrenOf ts c.id = [] :=
          childrenOf_nil_of_sub ts hN c hcts t.id hcpar
        show (flattenOne ⟨c, buildSubs ts ts.length c.id⟩).count a = _
        rw [buildSubs_nil ts c.id hcnil ts.length]
        show (c :: flattenList []).count a = _
        simp [flattenList, List.count_cons]
      rw [List.map_congr_left hleaf, sum_map_delta]
    show (t :: flattenList (insSort nodeDateDesc
        ((childrenOf ts t.id).map
          (fun c => ⟨c, buildSubs ts ts.length c.id⟩)))).count a = _
    rw [List.count_cons, hsubs]
    by_cases h : t = a <;> simp [h] <;> omega
  have hL3 := List.map_congr_left hpoint
  have hL4 := sum_map_add_nat (fun t => if t = a then 1 else 0)
    (fun t => (childrenOf ts t.id).count a)
    (ts.filter (fun t => !(resolves ts t.parentId)))
  have hL5 := sum_map_delta a (ts.filter (fun t => !(resolves ts t.parentId)))
  have hsplit : (ts.filter (fun t => resolves ts t.parentId)).count a +
      (ts.filter (fun t => !(resolves ts t.parentId))).count a = ts.count a := by
    have h := (List.filter_append_perm (fun t => resolves ts t.parentId) ts).count_eq a
    rw [List.count_append] at h
    exact h
  have hmain : ((ts.filter (fun t => !(resolves ts t.parentId))).map
        (fun t => (childrenOf ts t.id).count a)).sum
      = (ts.filter (fun t => resolves ts t.parentId)).count a := by
    by_cases hmem : a ∈ ts
    · cases hpa : a.parentId with
      | none =>
        have h1 : ∀ t ∈ ts.filter (fun t => !(resolves ts t.parentId)),
            (childrenOf ts t.id).count a = 0 := by
          intro t _
          apply List.count_eq_zero_of_not_mem
          intro hmm
          have h2 := (List.mem_filter.1 hmm).2
          simp only [decide_eq_true_eq] at h2
          rw [hpa] at h2
          exact Option.noConfusion h2
        have h3 : (ts.filter (fun t => resolves ts t.parentId)).count a = 0 := by
          apply count_zero_of_not_pred _ _
          rw [hpa]
          simp [resolves]
        rw [List.map_congr_left h1, h3]
        simp
      | some q =>
        by_cases hres : resolves ts (some q) = true
        · have hany := hres
          unfold resolves at hany
          rw [List.any_eq_true] at hany
          obtain ⟨w, hw, hwid⟩ := hany
          rw [decide_eq_true_eq] at hwid
          have hwpar : w.parentId = none := by
            by_contra hne
            exact hN w hw hne a hmem (by rw [hpa, hwid])
          have hwR : w ∈ ts.filter (fun t => !(resolves ts t.parentId)) := by
            refine List.mem_filter.2 ⟨hw, ?_⟩
            rw [hwpar]
            rfl
          have hsum2 : ∀ t ∈ ts.filter (fun t => !(resolves ts t.parentId)),
              (childrenOf ts t.id).count a =
                (if t.id = q then ts.count a else 0) := by
            intro t htR
            by_cases hid : t.id = q
            · rw [if_pos hid]
              unfold childrenOf
              exact List.count_filter (by simp [hpa, hid])
            · rw [if_neg hid]
              apply List.count_eq_zero_of_not_mem
              intro hmm
              have h2 := (List.mem_filter.1 hmm).2
              simp only [decide_eq_true_eq] at h2
              rw [hpa] at h2
              exact hid (Option.some.inj h2).symm
          have hnodupR : ((ts.filter (fun t => !(resolves ts t.parentId))).map
              (fun t => t.id)).Nodup :=
            hU.sublist ((List.filter_sublist ts).map (fun t => t.id))
          have hkey : ((ts.filter (fun t => !(resolves ts t.parentId))).map
              (fun x => if x.id = q then ts.count a else 0)).sum
              = ts.count a *
                ((ts.filter (fun t => !(resolves ts t.parentId))).filter
                  (fun x => x.id = q)).length :=
            sum_map_ite_key_nat (fun t : Txn => t.id) q (ts.count a) _
          have hfk : ((ts.filter (fun t => !(resolves ts t.parentId))).filter
              (fun x => x.id = q)) = [w] :=
            filter_key hnodupR hwR hwid
          rw [List.map_congr_left hsum2, hkey, hfk]
          have h3 : (ts.filter (fun t => resolves ts t.parentId)).count a
              = ts.count a :=
            List.count_filter (by rw [hpa]; exact hres)
          rw [h3]
          simp
        · have hsum2 : ∀ t ∈ ts.filter (fun t => !(resolves ts t.parentId)),
              (childrenOf ts t.id).count a = 0 := by
            intro t htR
            apply List.count_eq_zero_of_not_mem
            intro hmm
            have h2 := (List.mem_filter.1 hmm).2
            simp only [decide_eq_true_eq] at h2
            rw [hpa] at h2
            have hq2 : t.id = q := (Option.some.inj h2).symm
            apply hres
            unfold resolves
            rw [List.any_eq_true]
            exact ⟨t, (List.mem_filter.1 htR).1, by simp [hq2]⟩
          have h3 : (ts.filter (fun t => resolves ts t.parentId)).count a = 0 := by
            apply count_zero_of_not_pred _ _
            rw [hpa]
            exact hres
          rw [List.map_congr_left hsum2, h3]
          simp
    · have h1 : ∀ t ∈ ts.filter (fun t => !(resolves ts t.parentId)),
          (childrenOf ts t.id).count a = 0 := by
        intro t _
        apply List.count_eq_zero_of_not_mem
        intro hmm
        exact hmem (List.mem_filter.1 hmm).1
      have h3 : (ts.filter (fun t => resolves ts t.parentId)).count a = 0 := by
        apply List.count_eq_zero_of_not_mem
        intro hmm
        exact hmem (List.mem_filter.1 hmm).1
      rw [List.map_congr_left h1, h3]
      simp
  rw [hL1, hL2, hL3, hL4, hL5, hmain]
  omega

def c9ts : List Txn :=
  [sTxn "a" 1 "2024-01-01" (some "b"), sTxn "b" 2 "2024-01-02" (some "a")]

/-- C9 counterexample: on a two-record cycle every parentId resolves, so the
builder returns no roots at all and both records are dropped from the
output — they do not appear exactly once. -/
theorem tree_cycle_dropped_cx :
    (buildTree c9ts).length = 0 ∧ c9ts ≠ [] ∧
    ¬ (∀ t ∈ c9ts, (flattenList (buildTree c9ts)).count t = 1) := by
  decide

def w9ts : List Txn :=
  [sTxn "r" 3 "2024-01-02" none, sTxn "s" 3 "2024-01-01" (some "r")]

/-- Witness for tree_output_perm at a concrete parent/child list. -/
theorem tree_output_perm_w : (flattenList (buildTree w9ts)).Perm w9ts :=
  tree_output_perm w9ts (by decide) (by decide)

theorem childrenOf_map (g : Txn → Txn) (ts : List Txn)
    (h : ∀ t ∈ ts, (g t).parentId = t.parentId) (i : String) :
    childrenOf (ts.map g) i = (childrenOf ts i).map g := by
  unfold childrenOf
  exact filter_map_on (fun a ha => by rw [h a ha])

theorem childSum_map (g : Txn → Txn) (ts : List Txn)
    (hpar : ∀ t ∈ ts, (g t).parentId = t.parentId) (i : String)
    (hamt : ∀ c ∈ childrenOf ts i, (g c).amount = c.amount) :
    childSum (ts.map g) i = childSum ts i := by
  unfold childSum
  rw [childrenOf_map g ts hpar i, List.map_map]
  congr 1
  apply List.map_congr_left
  intro c hc
  exact hamt c hc

theorem setAmount_id_field (p : String) (s : Int) (t : Txn) :
    (setAmount p s t).id = t.id := by
  unfold setAmount
  split <;> rfl

theorem setAmount_parentId_field (p : String) (s : Int) (t : Txn) :
    (setAmount p s t).parentId = t.parentId := by
  unfold setAmount
  split <;> rfl

theorem setAmount_of_ne {p : String} {t : Txn} (s : Int) (h : ¬ t.id = p) :
    setAmount p s t = t := by
  unfold setAmount
  rw [if_neg h]

theorem setAmount_of_eq {p : String} {t : Txn} (s : Int) (h : t.id = p) :
    setAmount p s t = { t with amount := s } := by
  unfold setAmount
  rw [if_pos h]

/-- C2: updating a record that has at least one sub-item keeps its amount at
the already-derived sum of its children — for every supplied field bundle,
whatever amount it carries — so in the resulting set the record's amount
still equals the sum of its children's amounts there. -/
theorem update_locks_parent_amount (ts : List Txn) (r : Txn) (f : TxnFields)
    (hU : uniqueIds ts) (hN : noNesting ts) (hr : r ∈ ts)
    (hch : childrenOf ts r.id ≠ []) (hder : r.amount = childSum ts r.id) :
    (∃ u ∈ updateTxn ts r.id f, u.id = r.id) ∧
    ∀ u ∈ updateTxn ts r.id f, u.id = r.id →
      u.amount = childSum (updateTxn ts r.id f) r.id := by
  have hfind : ts.find? (fun t => t.id = r.id) = some r := find_key hU hr rfl
  obtain ⟨c, hcch⟩ := List.exists_mem_of_ne_nil _ hch
  have hcts : c ∈ ts := (List.mem_filter.1 hcch).1
  have hcpar : c.parentId = some r.id := by
    simpa using (List.mem_filter.1 hcch).2
  have hrpar : r.parentId = none := by
    by_contra hne
    exact hN r hr hne c hcts hcpar
  have hupd : updateTxn ts r.id f = updSaved ts r.id f r := by
    unfold updateTxn
    rw [hfind]
    show (match r.parentId with
      | some p => rederive (updSaved ts r.id f r) p
      | none => updSaved ts r.id f r) = updSaved ts r.id f r
    rw [hrpar]
  have hex : ∃ u ∈ ts, u.parentId = some r.id := ⟨c, hcts, hcpar⟩
  have hsaved : updSaved ts r.id f r =
      ts.map (fun t => if t.id = r.id then
        applyFields f r.parentId r.amount t else t) := by
    unfold updSaved
    rw [if_pos hex]
  rw [hupd, hsaved]
  have hg_id : ∀ t : Txn,
      ((if t.id = r.id then applyFields f r.parentId r.amount t else t)).id
        = t.id := by
    intro t
    split <;> rfl
  have hg_par : ∀ t ∈ ts,
      ((if t.id = r.id then applyFields f r.parentId r.amount t else t)).parentId
        = t.parentId := by
    intro t ht
    by_cases h : t.id = r.id
    · rw [if_pos h]
      have : t = r := inj_on_key hU ht hr h
      rw [this]
      rfl
    · rw [if_neg h]
  have hg_amt : ∀ d ∈ childrenOf ts r.id,
      ((if d.id = r.id then applyFields f r.parentId r.amount d else d)).amount
        = d.amount := by
    intro d hd
    have hdts : d ∈ ts := (List.mem_filter.1 hd).1
    have hdpar : d.parentId = some r.id := by
      simpa using (List.mem_filter.1 hd).2
    by_cases h : d.id = r.id
    · exfalso
      have : d = r := inj_on_key hU hdts hr h
      rw [this] at hdpar
      rw [hdpar] at hrpar
      exact Option.noConfusion hrpar
    · rw [if_neg h]
  have hsum : childSum (ts.map (fun t => if t.id = r.id then
      applyFields f r.parentId r.amount t else t)) r.id = childSum ts r.id :=
    childSum_map _ ts hg_par r.id hg_amt
  constructor
  · refine ⟨_, List.mem_map_of_mem _ hr, ?_⟩
    exact hg_id r
  · intro u hu huid
    obtain ⟨t, ht, rfl⟩ := List.mem_map.1 hu
    have htid : t.id = r.id := by
      rw [← hg_id t]
      exact huid
    have hteq : t = r := inj_on_key hU ht hr htid
    subst hteq
    rw [if_pos htid, hsum, ← hder]
    rfl

def w2p : Txn := sTxn "p" 7 "2024-01-02" none

def w2ts : List Txn := [w2p, sTxn "c" 7 "2024-01-01" (some "p")]

def w2f : TxnFields :=
  { description := "e", amount := 100, date := "2024-03-01",
    ttype := TxnType.EXPENSE, category := "g", notes := "" }

/-- Witness for update_locks_parent_amount at a concrete parent/child list
with a supplied amount of 100 that must be ignored. -/
theorem update_locks_parent_amount_w :
    (∃ u ∈ updateTxn w2ts w2p.id w2f, u.id = w2p.id) ∧
    ∀ u ∈ updateTxn w2ts w2p.id w2f, u.id = w2p.id →
      u.amount = childSum (updateTxn w2ts w2p.id w2f) w2p.id :=
  update_locks_parent_amount w2ts w2p w2f (by decide) (by decide) (by decide)
    (by decide) (by decide)

theorem length_filter_or {α : Type} (p q : α → Bool) (l : List α)
    (hdisj : ∀ a ∈ l, ¬(p a = true ∧ q a = true)) :
    (l.filter (fun a => p a || q a)).length =
      (l.filter p).length + (l.filter q).length := by
  induction l with
  | nil => rfl
  | cons x l ih =>
    have ihl := ih (fun a ha => hdisj a (List.mem_cons_of_mem x ha))
    have hx := hdisj x (List.mem_cons_self x l)
    by_cases hp : p x = true
    · have hq : q x = false := by
        cases hqv : q x
        · rfl
        · exact absurd ⟨hp, hqv⟩ hx
      simp [List.filter_cons, hp, hq, ihl]
      omega
    · have hp2 : p x = false := by
        cases hpv : p x
        · rfl
        · exact absurd hpv hp
      by_cases hq : q x = true
      · simp [List.filter_cons, hp2, hq, ihl]
        omega
      · have hq2 : q x = false := by
          cases hqv : q x
          · rfl
          · exact absurd hqv hq
        simp [List.filter_cons, hp2, hq2, ihl]

/-- C3: on a record set with tree depth at most two, deleting a top-level
record removes exactly it and its direct children — the result is the input
minus those N + 1 records — while deleting a sub-item removes exactly that
one record and re-derives its parent's amount from the remaining children. -/
theorem cascading_delete_exact (ts : List Txn) (tgt : Txn)
    (hU : uniqueIds ts) (hN : noNesting ts) (htgt : tgt ∈ ts) :
    (tgt.parentId = none →
      deleteTxn ts tgt.id =
        ts.filter (fun t => ¬(t.id = tgt.id ∨ t.parentId = some tgt.id)) ∧
      ts.length =
        (deleteTxn ts tgt.id).length + 1 + (childrenOf ts tgt.id).length) ∧
    (∀ p, tgt.parentId = some p →
      (deleteTxn ts tgt.id).length + 1 = ts.length ∧
      (∀ u ∈ ts, u ≠ tgt → ∃ v ∈ deleteTxn ts tgt.id, v.id = u.id) ∧
      (∀ v ∈ deleteTxn ts tgt.id, v.id = p →
        v.amount = childSum (deleteTxn ts tgt.id) p)) := by
  have hfind : ts.find? (fun t => t.id = tgt.id) = some tgt :=
    find_key hU htgt rfl
  constructor
  · intro hpar
    have hdel : deleteTxn ts tgt.id = removeCascade ts tgt.id := by
      unfold deleteTxn
      rw [hfind]
      show (match tgt.parentId with
        | some p => rederive (removeCascade ts tgt.id) p
        | none => removeCascade ts tgt.id) = removeCascade ts tgt.id
      rw [hpar]
    have hiff : ∀ t ∈ ts,
        (t.id ∈ (childrenOf ts tgt.id).map (fun c => c.id)) ↔
          t.parentId = some tgt.id := by
      intro t ht
      constructor
      · intro hmem
        obtain ⟨c, hc, hcid⟩ := List.mem_map.1 hmem
        have hcts : c ∈ ts := (List.mem_filter.1 hc).1
        have hcpar : c.parentId = some tgt.id := by
          simpa using (List.mem_filter.1 hc).2
        have hteq : t = c := inj_on_key hU ht hcts hcid.symm
        rw [hteq]
        exact hcpar
      · intro hpar2
        exact List.mem_map.2
          ⟨t, List.mem_filter.2 ⟨ht, by simp [hpar2]⟩, rfl⟩
    have hremEq : removeCascade ts tgt.id =
        ts.filter (fun t => ¬(t.id = tgt.id ∨ t.parentId = some tgt.id)) := by
      unfold removeCascade
      apply List.filter_congr
      intro t ht
      simp only [decide_eq_decide]
      exact not_congr (or_congr_right (hiff t ht))
    refine ⟨hdel.trans hremEq, ?_⟩
    have hb1 : ts.filter
          (fun t => ¬(t.id = tgt.id ∨ t.parentId = some tgt.id)) =
        ts.filter (fun t =>
          !(decide (t.id = tgt.id ∨ t.parentId = some tgt.id))) := by
      apply List.filter_congr
      intro t _
      by_cases h : (t.id = tgt.id ∨ t.parentId = some tgt.id) <;> simp [h]
    have hb2 : ts.filter
          (fun u => decide (u.id = tgt.id ∨ u.parentId = some tgt.id)) =
        ts.filter (fun u =>
          (decide (u.id = tgt.id)) || (decide (u.parentId = some tgt.id))) := by
      apply List.filter_congr
      intro t _
      by_cases h1 : t.id = tgt.id <;> by_cases h2 : t.parentId = some tgt.id <;>
        simp [h1, h2]
    have hsplit : (ts.filter
          (fun u => decide (u.id = tgt.id ∨ u.parentId = some tgt.id))).length +
        (ts.filter
          (fun u => !(decide (u.id = tgt.id ∨ u.parentId = some tgt.id)))).length
        = ts.length := by
      have h := (List.filter_append_perm
        (fun u => decide (u.id = tgt.id ∨ u.parentId = some tgt.id)) ts).length_eq
      rw [List.length_append] at h
      exact h
    have hor := length_filter_or (fun u => decide (u.id = tgt.id))
      (fun u => decide (u.parentId = some tgt.id)) ts (by
        intro a ha
        rintro ⟨h1, h2⟩
        simp only [decide_eq_true_eq] at h1 h2
        have haeq : a = tgt := inj_on_key hU ha htgt h1
        rw [haeq] at h2
        rw [h2] at hpar
        exact Option.noConfusion hpar)
    have hone : ts.filter (fun u => decide (u.id = tgt.id)) = [tgt] :=
      filter_key hU htgt rfl
    rw [hdel, hremEq, hb1]
    rw [hb2, hor, hone] at hsplit
    have hch : ts.filter (fun u => decide (u.parentId = some tgt.id)) =
        childrenOf ts tgt.id := rfl
    rw [hch] at hsplit
    simp only [List.length_cons, List.length_nil] at hsplit
    omega
  · intro p hpar
    have hchn : childrenOf ts tgt.id = [] :=
      childrenOf_nil_of_sub ts hN tgt htgt p hpar
    have hrem : removeCascade ts tgt.id =
        ts.filter (fun t => ¬ t.id = tgt.id) := by
      unfold removeCascade
      rw [hchn]
      apply List.filter_congr
      intro t _
      simp
    have hdel : deleteTxn ts tgt.id =
        rederive (ts.filter (fun t => ¬ t.id = tgt.id)) p := by
      unfold deleteTxn
      rw [hfind]
      show (match tgt.parentId with
        | some q => rederive (removeCascade ts tgt.id) q
        | none => removeCascade ts tgt.id) =
          rederive (ts.filter (fun t => ¬ t.id = tgt.id)) p
      rw [hpar, hrem]
    have hb1 : ts.filter (fun t => ¬ t.id = tgt.id) =
        ts.filter (fun t => !(decide (t.id = tgt.id))) := by
      apply List.filter_congr
      intro t _
      by_cases h : t.id = tgt.id <;> simp [h]
    have hone : ts.filter (fun u => decide (u.id = tgt.id)) = [tgt] :=
      filter_key hU htgt rfl
    have hsplit : (ts.filter (fun u => decide (u.id = tgt.id))).length +
        (ts.filter (fun u => !(decide (u.id = tgt.id)))).length = ts.length := by
      have h := (List.filter_append_perm
        (fun u => decide (u.id = tgt.id)) ts).length_eq
      rw [List.length_append] at h
      exact h
    rw [hone] at hsplit
    simp only [List.length_cons, List.length_nil] at hsplit
    refine ⟨?_, ?_, ?_⟩
    · rw [hdel]
      unfold rederive
      rw [List.length_map, hb1]
      omega
    · intro u hu hune
      have huid : ¬ u.id = tgt.id := by
        intro h
        exact hune (inj_on_key hU hu htgt h)
      have humem : u ∈ ts.filter (fun t => ¬ t.id = tgt.id) :=
        List.mem_filter.2 ⟨hu, by simp [huid]⟩
      refine ⟨setAmount p
        (childSum (ts.filter (fun t => ¬ t.id = tgt.id)) p) u, ?_, ?_⟩
      · rw [hdel]
        exact List.mem_map_of_mem _ humem
      · exact setAmount_id_field p _ u
    · intro v hv hvid
      have hsum : childSum (rederive
            (ts.filter (fun t => ¬ t.id = tgt.id)) p) p =
          childSum (ts.filter (fun t => ¬ t.id = tgt.id)) p := by
        unfold rederive
        apply childSum_map
        · intro t _
          exact setAmount_parentId_field p _ t
        · intro c hc
          have hcL : c ∈ ts.filter (fun t => ¬ t.id = tgt.id) :=
            (List.mem_filter.1 hc).1
          have hcts : c ∈ ts := (List.mem_filter.1 hcL).1
          have hcpar : c.parentId = some p := by
            simpa using (List.mem_filter.1 hc).2
          have hcid : ¬ c.id = p := by
            intro h
            refine hN c hcts (by rw [hcpar]; simp) c hcts ?_
            rw [hcpar, h]
          rw [setAmount_of_ne _ hcid]
      rw [hdel] at hv ⊢
      obtain ⟨t, htL, rfl⟩ := List.mem_map.1 hv
      have htid : t.id = p := by
        rw [← setAmount_id_field p
          (childSum (ts.filter (fun t => ¬ t.id = tgt.id)) p) t]
        exact hvid
      rw [setAmount_of_eq _ htid]
      unfold rederive at hsum ⊢
      rw [hsum]

def w3p : Txn := sTxn "p" 9 "2024-01-03" none

def w3ts : List Txn :=
  [w3p, sTxn "c1" 4 "2024-01-01" (some "p"), sTxn "c2" 5 "2024-01-02" (some "p")]

/-- Witness for cascading_delete_exact: deleting the parent of two sub-items
from the concrete three-record list removes exactly the three records. -/
theorem cascading_delete_exact_w :
    deleteTxn w3ts w3p.id =
      w3ts.filter (fun t => ¬(t.id = w3p.id ∨ t.parentId = some w3p.id)) ∧
    w3ts.length =
      (deleteTxn w3ts w3p.id).length + 1 + (childrenOf w3ts w3p.id).length :=
  (cascading_delete_exact w3ts w3p (by decide) (by decide) (by decide)).1
    (by decide)

theorem childrenOf_append (ts us : List Txn) (i : String) :
    childrenOf (ts ++ us) i = childrenOf ts i ++ childrenOf us i := by
  unfold childrenOf
  exact List.filter_append _ _

theorem childSum_append (ts us : List Txn) (i : String) :
    childSum (ts ++ us) i = childSum ts i + childSum us i := by
  unfold childSum
  rw [childrenOf_append, List.map_append, List.sum_append]

theorem childrenOf_filter (q : Txn → Bool) (ts : List Txn) (y : String) :
    childrenOf (ts.filter q) y = (childrenOf ts y).filter q := by
  unfold childrenOf
  rw [List.filter_filter, List.filter_filter]
  apply List.filter_congr
  intro a _
  exact Bool.and_comm _ _

theorem uniqueIds_map (g : Txn → Txn) (ts : List Txn)
    (hid : ∀ t ∈ ts, (g t).id = t.id) (hU : uniqueIds ts) :
    uniqueIds (ts.map g) := by
  unfold uniqueIds at hU ⊢
  rw [List.map_map]
  have h2 : ts.map ((fun u => u.id) ∘ g) = ts.map (fun u => u.id) :=
    List.map_congr_left (fun t ht => hid t ht)
  rw [h2]
  exact hU

theorem noNesting_map (g : Txn → Txn) (ts : List Txn)
    (hid : ∀ t ∈ ts, (g t).id = t.id)
    (hpar : ∀ t ∈ ts, (g t).parentId = t.parentId)
    (hN : noNesting ts) : noNesting (ts.map g) := by
  intro t' ht' hne u' hu'
  obtain ⟨t, ht, rfl⟩ := List.mem_map.1 ht'
  obtain ⟨u, hu, rfl⟩ := List.mem_map.1 hu'
  rw [hpar u hu, hid t ht]
  apply hN t ht _ u hu
  rw [← hpar t ht]
  exact hne

theorem parentSumOk_map_strong (g : Txn → Txn) (ts : List Txn)
    (hid : ∀ t ∈ ts, (g t).id = t.id)
    (hpar : ∀ t ∈ ts, (g t).parentId = t.parentId)
    (hamt : ∀ t ∈ ts, (g t).amount = t.amount)
    (hP : parentSumOk ts) : parentSumOk (ts.map g) := by
  intro x' hx' hch'
  obtain ⟨x, hx, rfl⟩ := List.mem_map.1 hx'
  rw [hid x hx] at hch' ⊢
  rw [childrenOf_map g ts hpar x.id] at hch'
  have hchts : childrenOf ts x.id ≠ [] := by
    intro h
    rw [h] at hch'
    exact hch' rfl
  rw [hamt x hx, childSum_map g ts hpar x.id
    (fun c hc => hamt c (List.mem_filter.1 hc).1)]
  exact hP x hx hchts

theorem uniqueIds_filter (q : Txn → Bool) (ts : List Txn)
    (hU : uniqueIds ts) : uniqueIds (ts.filter q) :=
  hU.sublist ((List.filter_sublist ts).map (fun t => t.id))

theorem noNesting_filter (q : Txn → Bool) (ts : List Txn)
    (hN : noNesting ts) : noNesting (ts.filter q) := by
  intro t ht hne u hu
  exact hN t (List.mem_filter.1 ht).1 hne u (List.mem_filter.1 hu).1

/-- Master lemma for the re-derivation write-back: if no child of p carries
the id p itself, no other parent has a child with id p, and the parent-sum
equation already holds away from p, then it holds everywhere after the
re-derivation of p. -/
theorem parentSumOk_rederive (L : List Txn) (p : String)
    (hself : ∀ c ∈ childrenOf L p, ¬ c.id = p)
    (hothers : ∀ q, ¬ q = p → ∀ c ∈ childrenOf L q, ¬ c.id = p)
    (hok : ∀ x ∈ L, ¬ x.id = p → childrenOf L x.id ≠ [] →
      x.amount = childSum L x.id) :
    parentSumOk (rederive L p) := by
  intro x' hx' hch'
  unfold rederive at hx' hch' ⊢
  obtain ⟨x, hx, rfl⟩ := List.mem_map.1 hx'
  have hid := setAmount_id_field p (childSum L p) x
  have hparfn : ∀ t ∈ L, (setAmount p (childSum L p) t).parentId = t.parentId :=
    fun t _ => setAmount_parentId_field p _ t
  rw [hid] at hch' ⊢
  rw [childrenOf_map _ L hparfn x.id] at hch'
  have hchts : childrenOf L x.id ≠ [] := by
    intro h
    rw [h] at hch'
    exact hch' rfl
  have hcne : ∀ c ∈ childrenOf L x.id, ¬ c.id = p := by
    by_cases hxp : x.id = p
    · intro c hc
      refine hself c ?_
      rw [← hxp]
      exact hc
    · exact hothers x.id hxp
  have hsum : childSum (L.map (setAmount p (childSum L p))) x.id
      = childSum L x.id := by
    apply childSum_map _ L hparfn
    intro c hc
    rw [setAmount_of_ne _ (hcne c hc)]
  rw [hsum]
  by_cases hxp : x.id = p
  · rw [setAmount_of_eq _ hxp]
    show childSum L p = childSum L x.id
    rw [hxp]
  · rw [setAmount_of_ne _ hxp]
    exact hok x hx hxp hchts

theorem validSet_create (ts : List Txn) (newId : String) (f : TxnFields)
    (pid : Option String) (hV : validSet ts)
    (hok : okOp ts (.createOp newId f pid)) :
    validSet (createTxn ts newId f pid) := by
  obtain ⟨hU, hN, hP⟩ := hV
  obtain ⟨hfresh, hpidne, htop⟩ := hok
  have hUapp : uniqueIds (ts ++ [mkTxn newId f pid]) := by
    unfold uniqueIds at hU ⊢
    rw [List.map_append, List.nodup_append]
    refine ⟨hU, by simp, ?_⟩
    intro a ha hmem
    obtain ⟨t, ht, rfl⟩ := List.mem_map.1 ha
    simp only [List.map_cons, List.map_nil, List.mem_singleton] at hmem
    exact (hfresh t ht).1 hmem
  have hNapp : noNesting (ts ++ [mkTxn newId f pid]) := by
    intro t ht hne u hu
    rcases List.mem_append.1 ht with ht2 | ht2
    · rcases List.mem_append.1 hu with hu2 | hu2
      · exact hN t ht2 hne u hu2
      · rw [List.mem_singleton] at hu2
        subst hu2
        show pid ≠ some t.id
        intro hcon
        exact hne (htop t.id hcon t ht2 rfl)
    · rw [List.mem_singleton] at ht2
      subst ht2
      rcases List.mem_append.1 hu with hu2 | hu2
      · exact (hfresh u hu2).2
      · rw [List.mem_singleton] at hu2
        subst hu2
        exact hpidne
  cases hpid : pid with
  | none =>
    subst hpid
    refine ⟨hUapp, hNapp, ?_⟩
    show parentSumOk (ts ++ [mkTxn newId f none])
    intro x hx hch
    have hchils : childrenOf (ts ++ [mkTxn newId f none]) x.id
        = childrenOf ts x.id := by
      rw [childrenOf_append]
      have hnil : childrenOf [mkTxn newId f none] x.id = [] := by
        unfold childrenOf
        simp [mkTxn]
      rw [hnil, List.append_nil]
    rw [hchils] at hch
    have hsum : childSum (ts ++ [mkTxn newId f none]) x.id
        = childSum ts x.id := by
      unfold childSum
      rw [hchils]
    rcases List.mem_append.1 hx with hx2 | hx2
    · rw [hsum]
      exact hP x hx2 hch
    · rw [List.mem_singleton] at hx2
      subst hx2
      exfalso
      apply hch
      unfold childrenOf
      rw [List.filter_eq_nil_iff]
      intro u hu
      simp only [decide_eq_true_eq]
      exact (hfresh u hu).2
  | some p =>
    subst hpid
    show validSet (rederive (ts ++ [mkTxn newId f (some p)]) p)
    have hpne : ¬ p = newId := by
      intro h
      exact hpidne (by rw [h])
    refine ⟨uniqueIds_map _ _ (fun t _ => setAmount_id_field _ _ t) hUapp,
      noNesting_map _ _ (fun t _ => setAmount_id_field _ _ t)
        (fun t _ => setAmount_parentId_field _ _ t) hNapp, ?_⟩
    apply parentSumOk_rederive
    · intro c hc hcid
      have hcpar : c.parentId = some p := by
        simpa using (List.mem_filter.1 hc).2
      rcases List.mem_append.1 (List.mem_filter.1 hc).1 with hc2 | hc2
      · have hcnone := htop p rfl c hc2 hcid
        rw [hcnone] at hcpar
        exact Option.noConfusion hcpar
      · rw [List.mem_singleton] at hc2
        subst hc2
        exact hpne hcid.symm
    · intro q hq c hc hcid
      have hcpar : c.parentId = some q := by
        simpa using (List.mem_filter.1 hc).2
      rcases List.mem_append.1 (List.mem_filter.1 hc).1 with hc2 | hc2
      · have hcnone := htop p rfl c hc2 hcid
        rw [hcnone] at hcpar
        exact Option.noConfusion hcpar
      · rw [List.mem_singleton] at hc2
        subst hc2
        exact hpne hcid.symm
    · intro x hx hxp hch
      have hchx : childrenOf (ts ++ [mkTxn newId f (some p)]) x.id
          = childrenOf ts x.id := by
        rw [childrenOf_append]
        have hnil : childrenOf [mkTxn newId f (some p)] x.id = [] := by
          unfold childrenOf
          rw [List.filter_eq_nil_iff]
          intro u hu
          rw [List.mem_singleton] at hu
          subst hu
          simp only [decide_eq_true_eq]
          intro hcon
          exact hxp (Option.some.inj hcon).symm
        rw [hnil, List.append_nil]
      rw [hchx] at hch
      have hsum : childSum (ts ++ [mkTxn newId f (some p)]) x.id
          = childSum ts x.id := by
        unfold childSum
        rw [hchx]
      rcases List.mem_append.1 hx with hx2 | hx2
      · rw [hsum]
        exact hP x hx2 hch
      · rw [List.mem_singleton] at hx2
        subst hx2
        exfalso
        apply hch
        unfold childrenOf
        rw [List.filter_eq_nil_iff]
        intro u hu
        simp only [decide_eq_true_eq]
        exact (hfresh u hu).2

theorem validSet_update (ts : List Txn) (i : String) (f : TxnFields)
    (hV : validSet ts) : validSet (updateTxn ts i f) := by
  obtain ⟨hU, hN, hP⟩ := hV
  cases hfind : ts.find? (fun t => t.id = i) with
  | none =>
    unfold updateTxn
    rw [hfind]
    exact ⟨hU, hN, hP⟩
  | some tgt =>
    have htgtts : tgt ∈ ts := List.mem_of_find?_eq_some hfind
    have htgtid : tgt.id = i := by
      simpa using List.find?_some hfind
    have hupd : updateTxn ts i f =
        (match tgt.parentId with
          | some p => rederive (updSaved ts i f tgt) p
          | none => updSaved ts i f tgt) := by
      unfold updateTxn
      rw [hfind]
    by_cases hsub : ∃ u ∈ ts, u.parentId = some i
    · have htp : tgt.parentId = none := by
        by_contra hne
        obtain ⟨c, hcts, hcp⟩ := hsub
        exact hN tgt htgtts hne c hcts (by rw [hcp, htgtid])
      have hred : updateTxn ts i f = updSaved ts i f tgt := by
        rw [hupd, htp]
      rw [hred]
      have hsaved : updSaved ts i f tgt = ts.map (fun t =>
          if t.id = i then applyFields f tgt.parentId tgt.amount t else t) := by
        unfold updSaved
        rw [if_pos hsub]
      rw [hsaved]
      have hgid : ∀ t : Txn,
          (if t.id = i then applyFields f tgt.parentId tgt.amount t else t).id
            = t.id := by
        intro t
        split <;> rfl
      have hgpar : ∀ t ∈ ts,
          (if t.id = i then applyFields f tgt.parentId tgt.amount t else t).parentId
            = t.parentId := by
        intro t ht
        by_cases h : t.id = i
        · rw [if_pos h]
          have hteq : t = tgt := inj_on_key hU ht htgtts (by rw [h, htgtid])
          rw [hteq]
          rfl
        · rw [if_neg h]
      have hgamt : ∀ t ∈ ts,
          (if t.id = i then applyFields f tgt.parentId tgt.amount t else t).amount
            = t.amount := by
        intro t ht
        by_cases h : t.id = i
        · rw [if_pos h]
          have hteq : t = tgt := inj_on_key hU ht htgtts (by rw [h, htgtid])
          rw [hteq]
          rfl
        · rw [if_neg h]
      exact ⟨uniqueIds_map _ ts (fun t _ => hgid t) hU,
        noNesting_map _ ts (fun t _ => hgid t) hgpar hN,
        parentSumOk_map_strong _ ts (fun t _ => hgid t) hgpar hgamt hP⟩
    · have hsaved : updSaved ts i f tgt = ts.map (fun t =>
          if t.id = i then applyFields f tgt.parentId f.amount t else t) := by
        unfold updSaved
        rw [if_neg hsub]
      have hgid : ∀ t : Txn,
          (if t.id = i then applyFields f tgt.parentId f.amount t else t).id
            = t.id := by
        intro t
        split <;> rfl
      have hgpar : ∀ t ∈ ts,
          (if t.id = i then applyFields f tgt.parentId f.amount t else t).parentId
            = t.parentId := by
        intro t ht
        by_cases h : t.id = i
        · rw [if_pos h]
          have hteq : t = tgt := inj_on_key hU ht htgtts (by rw [h, htgtid])
          rw [hteq]
          rfl
        · rw [if_neg h]
      have hchi : childrenOf ts i = [] := by
        unfold childrenOf
        rw [List.filter_eq_nil_iff]
        intro u hu
        simp only [decide_eq_true_eq]
        intro hcon
        exact hsub ⟨u, hu, hcon⟩
      cases htp : tgt.parentId with
      | none =>
        have hred : updateTxn ts i f = updSaved ts i f tgt := by
          rw [hupd, htp]
        rw [hred, hsaved]
        refine ⟨uniqueIds_map _ ts (fun t _ => hgid t) hU,
          noNesting_map _ ts (fun t _ => hgid t) hgpar hN, ?_⟩
        intro x' hx' hch'
        obtain ⟨x, hx, rfl⟩ := List.mem_map.1 hx'
        rw [hgid x] at hch' ⊢
        rw [childrenOf_map _ ts hgpar x.id] at hch'
        have hchts2 : childrenOf ts x.id ≠ [] := by
          intro h
          rw [h] at hch'
          exact hch' rfl
        have hxi : ¬ x.id = i := by
          intro h
          apply hchts2
          rw [h]
          exact hchi
        have hcamt : ∀ c ∈ childrenOf ts x.id,
            (if c.id = i then applyFields f tgt.parentId f.amount c else c).amount
              = c.amount := by
          intro c hc
          have hcts : c ∈ ts := (List.mem_filter.1 hc).1
          have hcpar : c.parentId = some x.id := by
            simpa using (List.mem_filter.1 hc).2
          by_cases h : c.id = i
          · exfalso
            have hceq : c = tgt := inj_on_key hU hcts htgtts (by rw [h, htgtid])
            rw [hceq, htp] at hcpar
            exact Option.noConfusion hcpar
          · rw [if_neg h]
        rw [childSum_map _ ts hgpar x.id hcamt]
        rw [if_neg hxi]
        exact hP x hx hchts2
      | some p =>
        have hred : updateTxn ts i f = rederive (updSaved ts i f tgt) p := by
          rw [hupd, htp]
        rw [hred, hsaved]
        refine ⟨?_, ?_, ?_⟩
        · apply uniqueIds_map _ _ (fun t _ => setAmount_id_field _ _ t)
          exact uniqueIds_map _ ts (fun t _ => hgid t) hU
        · apply noNesting_map _ _ (fun t _ => setAmount_id_field _ _ t)
            (fun t _ => setAmount_parentId_field _ _ t)
          exact noNesting_map _ ts (fun t _ => hgid t) hgpar hN
        · apply parentSumOk_rederive
          · intro c hc hcid
            have hcp2 : c.parentId = some p := by
              simpa using (List.mem_filter.1 hc).2
            obtain ⟨t, ht, rfl⟩ := List.mem_map.1 (List.mem_filter.1 hc).1
            rw [hgpar t ht] at hcp2
            rw [hgid t] at hcid
            refine hN t ht (by rw [hcp2]; simp) t ht ?_
            rw [hcp2, ← hcid]
          · intro q hq c hc hcid
            have hcp2 : c.parentId = some q := by
              simpa using (List.mem_filter.1 hc).2
            obtain ⟨t, ht, rfl⟩ := List.mem_map.1 (List.mem_filter.1 hc).1
            rw [hgpar t ht] at hcp2
            rw [hgid t] at hcid
            refine hN t ht (by rw [hcp2]; simp) tgt htgtts ?_
            rw [htp, ← hcid]
          · intro x' hx' hxp hch'
            obtain ⟨x, hx, rfl⟩ := List.mem_map.1 hx'
            rw [hgid x] at hch' hxp ⊢
            rw [childrenOf_map _ ts hgpar x.id] at hch'
            have hchts2 : childrenOf ts x.id ≠ [] := by
              intro h
              rw [h] at hch'
              exact hch' rfl
            have hxi : ¬ x.id = i := by
              intro h
              apply hchts2
              rw [h]
              exact hchi
            have hcamt : ∀ c ∈ childrenOf ts x.id,
                (if c.id = i then applyFields f tgt.parentId f.amount c else c).amount
                  = c.amount := by
              intro c hc
              have hcts : c ∈ ts := (List.mem_filter.1 hc).1
              have hcpar : c.parentId = some x.id := by
                simpa using (List.mem_filter.1 hc).2
              by_cases h : c.id = i
              · exfalso
                have hceq : c = tgt := inj_on_key hU hcts htgtts (by rw [h, htgtid])
                rw [hceq, htp] at hcpar
                exact hxp (Option.some.inj hcpar).symm
              · rw [if_neg h]
            rw [childSum_map _ ts hgpar x.id hcamt]
            rw [if_neg hxi]
            exact hP x hx hchts2

theorem validSet_delete (ts : List Txn) (i : String) (hV : validSet ts) :
    validSet (deleteTxn ts i) := by
  obtain ⟨hU, hN, hP⟩ := hV
  cases hfind : ts.find? (fun t => t.id = i) with
  | none =>
    unfold deleteTxn
    rw [hfind]
    exact ⟨hU, hN, hP⟩
  | some tgt =>
    have htgtts : tgt ∈ ts := List.mem_of_find?_eq_some hfind
    have htgtid : tgt.id = i := by
      simpa using List.find?_some hfind
    have hdel : deleteTxn ts i =
        (match tgt.parentId with
          | some p => rederive (removeCascade ts i) p
          | none => removeCascade ts i) := by
      unfold deleteTxn
      rw [hfind]
    have hUrem : uniqueIds (removeCascade ts i) := uniqueIds_filter _ ts hU
    have hNrem : noNesting (removeCascade ts i) := noNesting_filter _ ts hN
    cases htp : tgt.parentId with
    | none =>
      have hred : deleteTxn ts i = removeCascade ts i := by
        rw [hdel, htp]
      rw [hred]
      refine ⟨hUrem, hNrem, ?_⟩
      intro x hx hch
      have hxts : x ∈ ts := (List.mem_filter.1 hx).1
      have hxkeep : ¬(x.id = i ∨
          x.id ∈ (childrenOf ts i).map (fun c => c.id)) := by
        simpa using (List.mem_filter.1 hx).2
      have hkeep : ∀ c ∈ childrenOf ts x.id,
          (fun t => decide ¬(t.id = i ∨
            t.id ∈ (childrenOf ts i).map (fun c => c.id))) c = true := by
        intro c hc
        have hcts : c ∈ ts := (List.mem_filter.1 hc).1
        have hcpar : c.parentId = some x.id := by
          simpa using (List.mem_filter.1 hc).2
        simp only [decide_eq_true_eq]
        rintro (h | h)
        · have hceq : c = tgt := inj_on_key hU hcts htgtts (by rw [h, htgtid])
          rw [hceq, htp] at hcpar
          exact Option.noConfusion hcpar
        · obtain ⟨d, hd, hdid⟩ := List.mem_map.1 h
          have hdts : d ∈ ts := (List.mem_filter.1 hd).1
          have hdpar : d.parentId = some i := by
            simpa using (List.mem_filter.1 hd).2
          have hceq : c = d := inj_on_key hU hcts hdts hdid.symm
          rw [hceq, hdpar] at hcpar
          exact hxkeep (Or.inl (Option.some.inj hcpar).symm)
      unfold removeCascade at hch ⊢
      rw [childrenOf_filter] at hch
      rw [List.filter_eq_self.2 hkeep] at hch
      unfold childSum
      rw [childrenOf_filter, List.filter_eq_self.2 hkeep]
      exact hP x hxts hch
    | some p =>
      have hred : deleteTxn ts i = rederive (removeCascade ts i) p := by
        rw [hdel, htp]
      rw [hred]
      have hchtgt : childrenOf ts i = [] := by
        rw [← htgtid]
        exact childrenOf_nil_of_sub ts hN tgt htgtts p htp
      refine ⟨uniqueIds_map _ _ (fun t _ => setAmount_id_field _ _ t) hUrem,
        noNesting_map _ _ (fun t _ => setAmount_id_field _ _ t)
          (fun t _ => setAmount_parentId_field _ _ t) hNrem, ?_⟩
      apply parentSumOk_rederive
      · intro c hc hcid
        have hcrem : c ∈ removeCascade ts i := (List.mem_filter.1 hc).1
        have hcts : c ∈ ts := (List.mem_filter.1 hcrem).1
        have hcpar : c.parentId = some p := by
          simpa using (List.mem_filter.1 hc).2
        exact hN c hcts (by rw [hcpar]; simp) c hcts (by rw [hcpar, hcid])
      · intro q hq c hc hcid
        have hcrem : c ∈ removeCascade ts i := (List.mem_filter.1 hc).1
        have hcts : c ∈ ts := (List.mem_filter.1 hcrem).1
        have hcpar : c.parentId = some q := by
          simpa using (List.mem_filter.1 hc).2
        refine hN c hcts (by rw [hcpar]; simp) tgt htgtts ?_
        rw [htp, hcid]
      · intro x hx hxp hch
        have hxts : x ∈ ts := (List.mem_filter.1 hx).1
        have hkeep : ∀ c ∈ childrenOf ts x.id,
            (fun t => decide ¬(t.id = i ∨
              t.id ∈ (childrenOf ts i).map (fun c => c.id))) c = true := by
          intro c hc
          have hcts : c ∈ ts := (List.mem_filter.1 hc).1
          have hcpar : c.parentId = some x.id := by
            simpa using (List.mem_filter.1 hc).2
          simp only [decide_eq_true_eq]
          rintro (h | h)
          · have hceq : c = tgt := inj_on_key hU hcts htgtts (by rw [h, htgtid])
            rw [hceq, htp] at hcpar
            exact hxp (Option.some.inj hcpar).symm
          · rw [hchtgt] at h
            simp at h
        unfold removeCascade at hch ⊢
        rw [childrenOf_filter] at hch
        rw [List.filter_eq_self.2 hkeep] at hch
        unfold childSum
        rw [childrenOf_filter, List.filter_eq_self.2 hkeep]
        exact hP x hxts hch

theorem validSet_step (ts : List Txn) (op : Op) (hV : validSet ts)
    (hok : okOp ts op) : validSet (applyOp ts op) := by
  cases op with
  | createOp newId f pid => exact validSet_create ts newId f pid hV hok
  | updateOp i f => exact validSet_update ts i f hV
  | deleteOp i => exact validSet_delete ts i hV

theorem validSet_applyOps (ts : List Txn) (ops : List Op) (hV : validSet ts)
    (hseq : seqOk ts ops) : ∀ n, validSet (applyOps ts (ops.take n)) := by
  induction ops generalizing ts with
  | nil =>
    intro n
    simpa [applyOps] using hV
  | cons op ops ih =>
    intro n
    cases n with
    | zero => simpa [applyOps] using hV
    | succ n =>
      rw [List.take_succ_cons]
      show validSet (applyOps (applyOp ts op) (ops.take n))
      exact ih (applyOp ts op) (validSet_step ts op hV hseq.1) hseq.2 n

/-- C1 amended: starting from a record set conforming to the data model
(unique ids, no nested sub-items, parent-sum invariant) and applying any
sequence of Create/Update/Delete operations issued under the engine's
contract — each Create assigning a fresh id and attaching sub-items only to
top-level records — the record set after each operation of the sequence
again satisfies the parent-sum invariant. -/
theorem mutation_preserves_parent_sum (ts : List Txn) (ops : List Op)
    (hV : validSet ts) (hseq : seqOk ts ops) :
    ∀ n, parentSumOk (applyOps ts (ops.take n)) :=
  fun n => (validSet_applyOps ts ops hV hseq n).2.2

def c1ts : List Txn :=
  [sTxn "g" 5 "2024-01-03" none, sTxn "p" 5 "2024-01-02" (some "g"),
   sTxn "c" 5 "2024-01-01" (some "p")]

/-- C1 counterexample: a depth-three chain satisfies the parent-sum
invariant alone, yet deleting its leaf re-derives only the middle record,
leaving the top record's amount stale — the invariant is broken after one
Delete, so the parent-sum hypothesis by itself is not preserved. -/
theorem mutation_parent_sum_cx :
    parentSumOk c1ts ∧
    ¬ parentSumOk (applyOps c1ts [Op.deleteOp "c"]) := by
  decide

def w1f : TxnFields :=
  { description := "n", amount := 4, date := "2024-01-05",
    ttype := TxnType.EXPENSE, category := "g", notes := "" }

def w1ts : List Txn :=
  [sTxn "p" 3 "2024-01-02" none, sTxn "c" 3 "2024-01-01" (some "p")]

def w1ops : List Op := [Op.createOp "n1" w1f (some "p")]

/-- Witness for mutation_preserves_parent_sum: creating one further sub-item
under the sample parent keeps the invariant. -/
theorem mutation_preserves_parent_sum_w :
    parentSumOk (applyOps w1ts (w1ops.take 1)) :=
  mutation_preserves_parent_sum w1ts w1ops (by decide) (by decide) 1
